import Mathlib

/-!
Verification of `torchrec/inference/modules.py`.

This file gives a shallow embedding of the inference-time quantization and
sharding helpers of the repository and proves the specification's claims
about them.  Pure Python functions become Lean functions; the module graph
becomes an explicit tree of named children; fallible code returns `Except`
or `Option`.  Components that the file only calls (the embedding-sharding
planner, `torch` itself) are modelled from the specification where a claim
depends on them, and each such definition is marked `Modelled from the
spec:` in its doc comment.
-/

/-- Tensor element dtypes that appear in `modules.py` (`torch.float32`,
`torch.float64`, `torch.half`/`torch.float16`, `torch.int8`, ...). -/
inductive DType where
  | float32
  | float64
  | float16
  | int8
  | int32
  | int64
deriving DecidableEq, Repr

/-- A Python value appearing in a forward-input tuple: either a tensor,
carrying its dtype and an opaque payload identity, or any other object. -/
inductive PyValue where
  | tensor (dtype : DType) (payload : Nat)
  | other (payload : Nat)
deriving DecidableEq, Repr

/-- Model of `input.half()` on a tensor: same payload, dtype becomes float16. -/
def PyValue.half : PyValue → PyValue
  | .tensor _ p => .tensor .float16 p
  | v => v

/-- Model of `quantize_feature` (modules.py lines 116-129): maps over the `inputs`
tuple, replacing every `torch.Tensor` whose dtype is `float32` or `float64`
by its `.half()` cast and leaving every other element unchanged. -/
def quantize_feature (inputs : List PyValue) : List PyValue :=
  inputs.map fun input =>
    match input with
    | .tensor d p => if d = .float32 ∨ d = .float64 then (PyValue.tensor d p).half else .tensor d p
    | v => v

/-! ## String helpers

Python `"table" in name`, `name.split(".")`, `name.rsplit(".", 1)`,
modelled on the character list of the string. -/

/-- Prefix test on character lists, written out so proofs can unfold it. -/
def hasPrefixCL : List Char → List Char → Bool
  | [], _ => true
  | _ :: _, [] => false
  | p :: ps, c :: cs => p = c && hasPrefixCL ps cs

/-- Python substring test `pat in s` on character lists. -/
def containsSub (pat : List Char) : List Char → Bool
  | [] => hasPrefixCL pat []
  | c :: cs => hasPrefixCL pat (c :: cs) || containsSub pat cs

/-- Python `pat in s` for strings. -/
def strContains (s pat : String) : Bool := containsSub pat.toList s.toList

/-- Python `s.split(".")` on a character list: always returns a non-empty
list of (possibly empty) fields. -/
def splitDot : List Char → List (List Char)
  | [] => [[]]
  | c :: rest =>
    let r := splitDot rest
    if c = '.' then [] :: r
    else
      match r with
      | [] => [[c]]
      | h :: t => (c :: h) :: t

/-- Python `name.split(".")[-1]`: the last dot-separated component. -/
def lastComponent (s : String) : String :=
  String.mk ((splitDot s.toList).getLastD [])

/-- Split a character list at its LAST `'.'` into the part before and the
part after; `none` when the list holds no `'.'`.  This is the content of
Python `s.rsplit(".", 1)` unpacked into two variables: `some` is a
successful two-variable unpacking, `none` is the one-element result on
which the unpacking raises. -/
def rsplitDotOnce : List Char → Option (List Char × List Char)
  | [] => none
  | c :: rest =>
    match rsplitDotOnce rest with
    | some (l, r) => some (c :: l, r)
    | none => if c = '.' then some ([], rest) else none

/-- The parent/child split performed by `_quantize_fp_module`
(modules.py line 377): `fp_ebc_parent_fqn, fp_ebc_name =
fp_module_fqn.rsplit(".", 1)`, which succeeds exactly when the
fully-qualified name holds a dot. -/
def fpSplitParentChild (fqn : String) : Option (String × String) :=
  (rsplitDotOnce fqn.toList).map fun p => (String.mk p.1, String.mk p.2)

/-! ## Constraint synthesis in `shard_quant_model` -/

/-- The `ShardingType` values used by `shard_quant_model`. -/
inductive ShardingType where
  | TABLE_WISE
  | ROW_WISE
  | COLUMN_WISE
deriving DecidableEq, Repr

/-- The `EmbeddingComputeKernel` values used by `shard_quant_model`. -/
inductive EmbeddingComputeKernel where
  | QUANT
  | DENSE
  | FUSED
deriving DecidableEq, Repr

/-- The two fields of `ParameterConstraints` that `shard_quant_model`
populates. -/
structure ParameterConstraints where
  sharding_types : List ShardingType
  compute_kernels : List EmbeddingComputeKernel
deriving DecidableEq, Repr

/-- The `table_fqns` loop of `shard_quant_model` (modules.py lines
428-431): the last components of module names that contain the substring
`"table"`. -/
def table_fqns (moduleNames : List String) : List String :=
  (moduleNames.filter fun n => strContains n "table").map lastComponent

/-- The default constraint synthesized by `shard_quant_model` (modules.py
lines 436-439): table-wise sharding, quantized compute kernel. -/
def defaultTableConstraint : ParameterConstraints :=
  { sharding_types := [ShardingType.TABLE_WISE]
    compute_kernels := [EmbeddingComputeKernel.QUANT] }

/-- The `constraints` dict built by `shard_quant_model` when `constraints`
is `None` (modules.py lines 427-439), as the association list of its
entries in insertion order. -/
def defaultConstraints (moduleNames : List String) : List (String × ParameterConstraints) :=
  (table_fqns moduleNames).map fun n => (n, defaultTableConstraint)

/-! ## Module graph

A live `nn.Module` graph: each module has a resolved type name, a
half-precision flag and a forward-pre-hook flag (tracking `.half()` and
`register_forward_pre_hook(quantize_feature)`), and an ordered dict of
named children (`_modules`). -/

/-- A module in the graph. -/
inductive NModule where
  | mk (typeName : String) (isHalf : Bool) (hasHook : Bool)
      (children : List (String × NModule))

/-- Resolved type name of a module. -/
def NModule.typeName : NModule → String
  | .mk t _ _ _ => t

/-- Half-precision flag. -/
def NModule.isHalf : NModule → Bool
  | .mk _ h _ _ => h

/-- Forward-pre-hook flag. -/
def NModule.hasHook : NModule → Bool
  | .mk _ _ k _ => k

/-- The `_modules` dict of a module, as an ordered association list. -/
def NModule.children : NModule → List (String × NModule)
  | .mk _ _ _ c => c

/-- The fully-qualified names (as component paths) of all strict
descendants of a module whose children are the given list: what
`named_modules()` yields, minus the root's empty name, with dots replaced
by path structure. -/
def fqnsList : List (String × NModule) → List (List String)
  | [] => []
  | (n, .mk _ _ _ cs) :: rest =>
      [n] :: (fqnsList cs).map (List.cons n) ++ fqnsList rest

/-- The fully-qualified module names reachable in the graph rooted at `m`
(the root itself excluded, as its name is empty). -/
def NModule.fqns (m : NModule) : List (List String) := fqnsList m.children

/-- Model of `mod.half()` followed by
`register_forward_pre_hook(quantize_feature)`: an in-place cast of every
parameter of the subtree to half precision plus a hook on the root of the
swapped module.  The module structure — type names, child names, hierarchy
— is untouched. -/
def halfCastList : List (String × NModule) → List (String × NModule)
  | [] => []
  | (n, .mk t _ k cs) :: rest => (n, .mk t true k (halfCastList cs)) :: halfCastList rest

/-- Model of `mod.half()` with the `quantize_feature` hook installed on the root. -/
def NModule.halfHooked : NModule → NModule
  | .mk t _ _ cs => .mk t true true (halfCastList cs)

/-- Errors raised by the quantization helpers.  `unsupportedPrecision`
models the `NotImplementedError` of `quantize_dense` (the spec's
`UnsupportedPrecisionError`); `valueError` models the `ValueError` raised
by a failing two-variable unpacking in `_quantize_fp_module`. -/
inductive QuantError where
  | unsupportedPrecision (msg : String)
  | valueError (msg : String)
deriving DecidableEq, Repr

/-- The membership test of `quantize_dense` (modules.py lines 331-335): a
child is left alone iff it is an `EmbeddingBagCollectionInterface`, an
`EmbeddingCollectionInterface`, or its exact type is listed in
`additional_embedding_module_type`.  Type identity and the two interface
checks are resolved on the type name. -/
def isEmbeddingModuleType (interfaceTypes additional : List String) (t : String) : Bool :=
  interfaceTypes.contains t || additional.contains t

/-- The child loop of `quantize_dense` (modules.py lines 328-343): build
the `reassign` dict; for every non-embedding child, if `dtype` is
`torch.half` record the half-cast hooked copy under the child's name,
otherwise raise `NotImplementedError` immediately. -/
def buildReassign (interfaceTypes additional : List String) (dtype : DType) :
    List (String × NModule) → Except QuantError (List (String × NModule))
  | [] => .ok []
  | (n, m) :: rest =>
    if isEmbeddingModuleType interfaceTypes additional m.typeName then
      buildReassign interfaceTypes additional dtype rest
    else if dtype = .float16 then
      match buildReassign interfaceTypes additional dtype rest with
      | .error e => .error e
      | .ok r => .ok ((n, m.halfHooked) :: r)
    else
      .error (.unsupportedPrecision "only fp16 is supported for non-embedding module lowering")

/-- The reassignment loop of `quantize_dense` (modules.py lines 344-345):
`module._modules[key] = value` for every recorded key, which overwrites
the entry at an existing key in place. -/
def applyReassign (children reassign : List (String × NModule)) : List (String × NModule) :=
  children.map fun nc =>
    match reassign.lookup nc.1 with
    | some m => (nc.1, m)
    | none => nc

/-- Model of `quantize_dense` (modules.py lines 320-346) acting on the wrapped
predict module: rewrite the direct children, leaving embedding modules
alone and down-casting the rest to half precision, or fail. -/
def quantize_dense (interfaceTypes additional : List String) (dtype : DType)
    (module : NModule) : Except QuantError NModule :=
  match buildReassign interfaceTypes additional dtype module.children with
  | .error e => .error e
  | .ok reassign =>
      .ok (.mk module.typeName module.isHalf module.hasHook
        (applyReassign module.children reassign))

/-- Model of `parent.register_module(name, q)` (used at modules.py lines 379-382):
overwrite the child registered under `name` in place when it exists,
append it otherwise. -/
def registerChild (m : NModule) (name : String) (q : NModule) : NModule :=
  if (m.children.map Prod.fst).contains name then
    .mk m.typeName m.isHalf m.hasHook
      (m.children.map fun nc => if nc.1 = name then (nc.1, q) else nc)
  else
    .mk m.typeName m.isHalf m.hasHook (m.children ++ [(name, q)])

/-- The module swap of `_quantize_fp_module` (modules.py lines 377-382):
walk down the parent path (`getattr_recursive(model, fp_ebc_parent_fqn)`)
and re-register the quantized module under the same child name
(`fp_ebc_parent.register_module(fp_ebc_name, ...)`).  `quantized` is the
module built by the external
`QuantFeatureProcessedEmbeddingBagCollection.from_float(fp_module)`. -/
def setChildAtPath : NModule → List String → String → NModule → NModule
  | m, [], name, quantized => registerChild m name quantized
  | m, p :: ps, name, quantized =>
      .mk m.typeName m.isHalf m.hasHook
        (m.children.map fun nc =>
          if nc.1 = p then (nc.1, setChildAtPath nc.2 ps name quantized) else nc)

/-! ## `quantize_inference_model` traversal -/

/-- The resolved type name of `FeatureProcessedEmbeddingBagCollection`
(modules.py lines 111-113). -/
def FEATURE_PROCESSED_EBC_TYPE : String :=
  "torchrec.modules.fp_embedding_modules.FeatureProcessedEmbeddingBagCollection"

/-- The keys of `DEFAULT_QUANT_MAPPING` (modules.py lines 100-107): the
resolved type names of the two built-in embedding-collection kinds. -/
def DEFAULT_QUANT_MAPPING_KEYS : List String :=
  ["torchrec.modules.embedding_modules.EmbeddingBagCollection",
   "torchrec.modules.embedding_modules.EmbeddingCollection"]

/-- The name handling of `_quantize_fp_module` (modules.py line 377), keeping
only what can fail: the two-variable unpacking of
`fp_module_fqn.rsplit(".", 1)`.  Returns the parent fqn / child name pair,
or the `ValueError` the unpacking raises when the name holds no dot. -/
def quantize_fp_module_splitName (fqn : String) : Except QuantError (String × String) :=
  match fpSplitParentChild fqn with
  | some p => .ok p
  | none => .error (.valueError "not enough values to unpack (expected 2, got 1)")

/-- The classification loop of `quantize_inference_model` (modules.py
lines 387-395) over `model.named_modules()`, given as the list of
(fully-qualified name, resolved type name) pairs: mapping hits are
collected for the generic pass, a `FeatureProcessedEmbeddingBagCollection`
is handled immediately by `_quantize_fp_module`, whose name-split failure
propagates out of the loop. -/
def quantizeInferenceModelLoop (mappingKeys : List String) :
    List (String × String) → Except QuantError Unit
  | [] => .ok ()
  | (n, t) :: rest =>
    if mappingKeys.contains t then quantizeInferenceModelLoop mappingKeys rest
    else if t = FEATURE_PROCESSED_EBC_TYPE then
      match quantize_fp_module_splitName n with
      | .error e => .error e
      | .ok _ => quantizeInferenceModelLoop mappingKeys rest
    else quantizeInferenceModelLoop mappingKeys rest

/-! ## The sharding planner

`shard_quant_model` builds the planner out of components that live
elsewhere in the repository (`torchrec.distributed.planner`), so the
planner itself is modelled from the spec (§4.3): tables are processed in
decreasing order of storage cost, ties broken by table name
lexicographically; each table goes to the first device that keeps the
device's cumulative storage within `capacity × (1 − reservation
fraction)`; when no device fits, the planner fails with a
`CapacityExceededError` naming the table and the shortfall.  The default
constraints of `shard_quant_model` force the single candidate (table-wise,
quantized kernel), so one candidate per table is placed. -/

/-- A table together with its storage-estimator output, in bytes. -/
structure PlannerTable where
  name : String
  storage : Nat
deriving DecidableEq, Repr

/-- Modelled from the spec: fatal planner errors (§7); the missing code is
`torchrec.distributed.planner`'s `PlannerError`.  `CapacityExceededError`
names the offending table and the shortfall. -/
inductive PlannerError where
  | capacityExceeded (tableName : String) (shortfall : Nat)
deriving DecidableEq, Repr

/-- Modelled from the spec: the effective per-device budget `capacity ×
(1 − reservation_fraction)` of §4.3 and §8, with the reservation fraction
written as `percent / 100`; the missing code is
`FixedPercentageStorageReservation` applied by the planner.
`shard_quant_model` passes `percentage=0.0`. -/
def effCap (c percent : Nat) : Nat := c * (100 - percent) / 100

/-- Modelled from the spec: feasibility of adding `cost` to a device with
current `load` (§4.3); a capacity of `none` is unbounded, so every
candidate is trivially feasible. -/
def fitsOn (cap : Option Nat) (percent load cost : Nat) : Bool :=
  match cap with
  | none => true
  | some c => load + cost ≤ effCap c percent

/-- Modelled from the spec: the device chosen for a table — the first
device whose load stays within the budget (§4.3's greedy assignment);
`none` when no device admits the table. -/
def firstFit (cap : Option Nat) (percent cost : Nat) : List Nat → Option Nat
  | [] => none
  | load :: rest =>
    if fitsOn cap percent load cost then some 0
    else (firstFit cap percent cost rest).map (· + 1)

/-- Minimum of a load list (0 for no devices). -/
def minLoad : List Nat → Nat
  | [] => 0
  | [l] => l
  | l :: l' :: rest => min l (minLoad (l' :: rest))

/-- Modelled from the spec: the shortfall reported by
`CapacityExceededError` — the amount by which the table misses the
largest remaining budget on any device (§4.3, §7). -/
def shortfallOf (cap : Option Nat) (percent cost : Nat) (loads : List Nat) : Nat :=
  match cap with
  | none => 0
  | some c => cost + minLoad loads - effCap c percent

/-- Modelled from the spec: place the (already sorted) tables greedily on
the devices, returning the assignment (table, device index) and the final
loads, or the fatal `CapacityExceededError` (§4.3). -/
def placeSorted (cap : Option Nat) (percent : Nat) :
    List PlannerTable → List Nat → Except PlannerError (List (PlannerTable × Nat) × List Nat)
  | [], loads => .ok ([], loads)
  | t :: ts, loads =>
    match firstFit cap percent t.storage loads with
    | none => .error (.capacityExceeded t.name (shortfallOf cap percent t.storage loads))
    | some d =>
      match placeSorted cap percent ts (loads.set d (loads.getD d 0 + t.storage)) with
      | .error e => .error e
      | .ok (asg, final) => .ok ((t, d) :: asg, final)

/-- Modelled from the spec: the planner's processing order (§4.3) —
decreasing storage cost, ties broken by table name, lexicographically. -/
def planOrder (a b : PlannerTable) : Prop :=
  b.storage < a.storage ∨ (a.storage = b.storage ∧ a.name ≤ b.name)

instance : DecidableRel planOrder := fun a b =>
  inferInstanceAs (Decidable (b.storage < a.storage ∨ (a.storage = b.storage ∧ a.name ≤ b.name)))

/-- Modelled from the spec: sort the tables largest-first with the
lexicographic tie-break (§4.3). -/
def sortTables (l : List PlannerTable) : List PlannerTable :=
  l.insertionSort planOrder

instance : IsTotal PlannerTable planOrder :=
  ⟨fun a b => by
    rcases Nat.lt_trichotomy a.storage b.storage with h | h | h
    · exact Or.inr (Or.inl h)
    · rcases le_total a.name b.name with hn | hn
      · exact Or.inl (Or.inr ⟨h, hn⟩)
      · exact Or.inr (Or.inr ⟨h.symm, hn⟩)
    · exact Or.inl (Or.inl h)⟩

instance : IsTrans PlannerTable planOrder :=
  ⟨fun a b c hab hbc => by
    rcases hab with h1 | ⟨h1, hn1⟩
    · rcases hbc with h2 | ⟨h2, hn2⟩
      · exact Or.inl (h2.trans h1)
      · exact Or.inl (h2 ▸ h1)
    · rcases hbc with h2 | ⟨h2, hn2⟩
      · exact Or.inl (h1 ▸ h2)
      · exact Or.inr ⟨h1.trans h2, hn1.trans hn2⟩⟩

instance : IsAntisymm PlannerTable planOrder :=
  ⟨fun a b hab hba => by
    rcases hab with h1 | ⟨h1, hn1⟩
    · rcases hba with h2 | ⟨h2, hn2⟩
      · exact absurd (h1.trans h2) (lt_irrefl _)
      · exact absurd (h2 ▸ h1) (lt_irrefl _)
    · rcases hba with h2 | ⟨h2, hn2⟩
      · exact absurd (h1 ▸ h2) (lt_irrefl _)
      · cases a
        cases b
        simp only [PlannerTable.mk.injEq]
        exact ⟨le_antisymm hn1 hn2, h1⟩⟩

/-- Modelled from the spec: the planner invoked by `shard_quant_model`
(§4.3) — the missing code is
`torchrec.distributed.planner.EmbeddingShardingPlanner.plan`.  `ws` is the
topology's world size; devices start empty; the produced Plan maps each
table to its chosen device. -/
def planTables (cap : Option Nat) (percent ws : Nat) (tables : List PlannerTable) :
    Except PlannerError (List (PlannerTable × Nat)) :=
  (placeSorted cap percent (sortTables tables) (List.replicate ws 0)).map Prod.fst

/-- The plan computed inside `shard_quant_model` (modules.py lines
450-478): the modelled planner with the reservation percentage `0.0` that
`shard_quant_model` passes to `FixedPercentageStorageReservation`. -/
def shard_quant_model_plan (cap : Option Nat) (ws : Nat) (tables : List PlannerTable) :
    Except PlannerError (List (PlannerTable × Nat)) :=
  planTables cap 0 ws tables

/-- Total storage of the tables a plan assigns to device `d`. -/
def sumAssignedTo (asg : List (PlannerTable × Nat)) (d : Nat) : Nat :=
  (asg.map fun p => if p.2 = d then p.1.storage else 0).sum

/-- The `hbm_cap` selection of `shard_quant_model` (modules.py lines
441-448): an explicit `device_memory_size` wins; otherwise, when CUDA is
available and the compute device is `"cuda"`, the total memory queried
from the active device; otherwise `None`. -/
def resolveHbmCap (device_memory_size : Option Nat) (cuda_available : Bool)
    (compute_device : String) (queried_total_memory : Nat) : Option Nat :=
  match device_memory_size with
  | some s => some s
  | none =>
    if cuda_available && compute_device = "cuda" then some queried_total_memory
    else none

/-! ## Serialized metadata boundary

`batching_metadata_json` / `qualname_metadata_json` (modules.py lines
206-212 and 246-252) serialize `{key: asdict(value)}` with `json.dumps`.
The JSON value tree produced by `asdict` plus the dict comprehension is
modelled explicitly; `json.dumps`/`json.loads` on that tree is the
standard library's lossless string encoding of it. -/

/-- A JSON value as produced for the metadata maps. -/
inductive Json where
  | str (s : String)
  | jbool (b : Bool)
  | arr (elems : List Json)
  | obj (fields : List (String × Json))

/-- Model of `QualNameMetadata` (modules.py lines 165-167). -/
structure QualNameMetadata where
  need_preproc : Bool
deriving DecidableEq, Repr

/-- Model of `BatchingMetadata` (modules.py lines 170-181). -/
structure BatchingMetadata where
  type : String
  device : String
  pinned : List String
deriving DecidableEq, Repr

/-- Model of `asdict` on a `BatchingMetadata` record. -/
def BatchingMetadata.asdict (m : BatchingMetadata) : Json :=
  .obj [("type", .str m.type), ("device", .str m.device),
        ("pinned", .arr (m.pinned.map .str))]

/-- Model of `asdict` on a `QualNameMetadata` record. -/
def QualNameMetadata.asdict (m : QualNameMetadata) : Json :=
  .obj [("need_preproc", .jbool m.need_preproc)]

/-- Model of `batching_metadata_json` (modules.py lines 206-212): the JSON object
`{key: asdict(value) for key, value in batching_metadata().items()}`. -/
def batching_metadata_json (m : List (String × BatchingMetadata)) : Json :=
  .obj (m.map fun kv => (kv.1, kv.2.asdict))

/-- Model of `qualname_metadata_json` (modules.py lines 246-252): the JSON object
`{key: asdict(value) for key, value in qualname_metadata().items()}`. -/
def qualname_metadata_json (m : List (String × QualNameMetadata)) : Json :=
  .obj (m.map fun kv => (kv.1, kv.2.asdict))

/-- Deserialize a JSON array of strings. -/
def decodeStrList : Json → Option (List String)
  | .arr xs => xs.mapM fun j => match j with | .str s => some s | _ => none
  | _ => none

/-- Deserialize one `BatchingMetadata` record from its JSON dict. -/
def decodeBatchingMetadata : Json → Option BatchingMetadata
  | .obj [("type", .str t), ("device", .str d), ("pinned", p)] =>
      (decodeStrList p).map fun l => ⟨t, d, l⟩
  | _ => none

/-- Deserialize one `QualNameMetadata` record from its JSON dict. -/
def decodeQualNameMetadata : Json → Option QualNameMetadata
  | .obj [("need_preproc", .jbool b)] => some ⟨b⟩
  | _ => none

/-- Deserialize a batching-metadata map from its JSON object. -/
def decodeBatchingMetadataMap : Json → Option (List (String × BatchingMetadata))
  | .obj kvs => kvs.mapM fun kv => (decodeBatchingMetadata kv.2).map fun v => (kv.1, v)
  | _ => none

/-- Deserialize a qualname-metadata map from its JSON object. -/
def decodeQualNameMetadataMap : Json → Option (List (String × QualNameMetadata))
  | .obj kvs => kvs.mapM fun kv => (decodeQualNameMetadata kv.2).map fun v => (kv.1, v)
  | _ => none

/-! ## Concrete graphs used by witnesses and counterexamples -/

/-- A model whose `FeatureProcessedEmbeddingBagCollection` sits below a
submodule, with one internal feature-processor child. -/
def fpExampleGraph : NModule :=
  .mk "Root" false false
    [("sparse", .mk "Sparse" false false
        [("fpebc", .mk FEATURE_PROCESSED_EBC_TYPE false false
            [("fp", .mk "FeatureProcessor" false false [])])])]

/-- A quantized replacement for the feature-processed module whose
internal children differ from the float original's (as
`QuantFeatureProcessedEmbeddingBagCollection.from_float` builds). -/
def fpExampleQuantized : NModule :=
  .mk "QuantFeatureProcessedEmbeddingBagCollection" false false
    [("emb", .mk "IntNBitTableBatchedEmbeddingBagsCodegen" false false [])]

/-- A predict module with one embedding child and one dense child. -/
def denseExampleGraph : NModule :=
  .mk "Predict" false false
    [("ebc", .mk "torchrec.modules.embedding_modules.EmbeddingBagCollection" false false []),
     ("mlp", .mk "torch.nn.modules.linear.Linear" false false [])]

/-- The interface type names checked by `quantize_dense`'s `isinstance`
tests in the example graphs. -/
def exampleInterfaceTypes : List String :=
  ["torchrec.modules.embedding_modules.EmbeddingBagCollection",
   "torchrec.modules.embedding_modules.EmbeddingCollection"]

/-! ## Theorems -/

/-- C7: for every tuple of forward inputs, `quantize_feature` returns a
tuple of the same length in which every element that is a tensor of dtype
float32 or float64 is replaced by its half-precision cast, and every other
element (non-tensor, or tensor of another dtype) is returned unchanged in
the same position. -/
theorem claim_quantize_feature_elementwise (inputs : List PyValue) :
    (quantize_feature inputs).length = inputs.length ∧
    (∀ i : Fin inputs.length, ∀ d p, inputs.get i = PyValue.tensor d p →
        (d = DType.float32 ∨ d = DType.float64) →
        (quantize_feature inputs).get? i.val = some (PyValue.tensor DType.float16 p)) ∧
    (∀ i : Fin inputs.length,
        (∀ d p, inputs.get i = PyValue.tensor d p →
            d ≠ DType.float32 ∧ d ≠ DType.float64) →
        (quantize_feature inputs).get? i.val = some (inputs.get i)) := by
  refine ⟨List.length_map .., ?_, ?_⟩
  · intro i d p hip hd
    have : (quantize_feature inputs).get? i.val =
        (inputs.get? i.val).map (fun input =>
          match input with
          | .tensor d p =>
              if d = .float32 ∨ d = .float64 then (PyValue.tensor d p).half else .tensor d p
          | v => v) := by
      simp [quantize_feature]
    rw [this, List.get?_eq_get i.isLt, hip]
    simp [hd, PyValue.half]
  · intro i hother
    have : (quantize_feature inputs).get? i.val =
        (inputs.get? i.val).map (fun input =>
          match input with
          | .tensor d p =>
              if d = .float32 ∨ d = .float64 then (PyValue.tensor d p).half else .tensor d p
          | v => v) := by
      simp [quantize_feature]
    rw [this, List.get?_eq_get i.isLt]
    cases hv : inputs.get i with
    | tensor d p =>
      have := hother d p hv
      simp [this.1, this.2]
    | other p => simp

/-- C7 witness: a float32 tensor is half-cast, an int64 tensor and a
non-tensor are unchanged. -/
theorem claim_quantize_feature_elementwise_witness :
    (quantize_feature [PyValue.tensor .float32 5, PyValue.tensor .int64 6, PyValue.other 7]).get? 0
        = some (PyValue.tensor .float16 5) ∧
    (quantize_feature [PyValue.tensor .float32 5, PyValue.tensor .int64 6, PyValue.other 7]).get? 2
        = some (PyValue.other 7) := by
  constructor
  · exact (claim_quantize_feature_elementwise _).2.1 ⟨0, by decide⟩ .float32 5 rfl (Or.inl rfl)
  · exact (claim_quantize_feature_elementwise _).2.2 ⟨2, by decide⟩
      (by intro d p h; exact PyValue.noConfusion h)

/-- C5: when `constraints` is omitted, `shard_quant_model` synthesizes a
constraint exactly for every module whose fully-qualified name contains
the substring `"table"`, keyed by the last dot-separated component of that
name, and each synthesized constraint allows exactly one sharding type
(table-wise) and exactly one compute kernel (quantized); no entries are
synthesized for any other module. -/
theorem claim_default_constraint_synthesis (moduleNames : List String) :
    (∀ k : String,
        (∃ pc, (k, pc) ∈ defaultConstraints moduleNames) ↔
        (∃ n ∈ moduleNames, strContains n "table" = true ∧ lastComponent n = k)) ∧
    (∀ kv ∈ defaultConstraints moduleNames,
        kv.2.sharding_types = [ShardingType.TABLE_WISE] ∧
        kv.2.compute_kernels = [EmbeddingComputeKernel.QUANT]) := by
  constructor
  · intro k
    constructor
    · rintro ⟨pc, hpc⟩
      rw [defaultConstraints] at hpc
      obtain ⟨n, hn, heq⟩ := List.mem_map.mp hpc
      obtain ⟨m, hm, hlast⟩ := List.mem_map.mp hn
      obtain ⟨hmem, hcond⟩ := List.mem_filter.mp hm
      exact ⟨m, hmem, hcond, by rw [hlast]; exact congrArg Prod.fst heq⟩
    · rintro ⟨n, hn, hc, hlast⟩
      refine ⟨defaultTableConstraint, ?_⟩
      rw [← hlast]
      exact List.mem_map_of_mem _
        (List.mem_map_of_mem _ (List.mem_filter.mpr ⟨hn, hc⟩))
  · intro kv hkv
    obtain ⟨n, _, heq⟩ := List.mem_map.mp hkv
    rw [← heq]
    exact ⟨rfl, rfl⟩

/-- C5 witness: for module names `["sparse.table_0", "dense"]` an entry
keyed `"table_0"` exists, and every synthesized entry carries the
table-wise / quantized constraint. -/
theorem claim_default_constraint_synthesis_witness :
    (∃ pc, ("table_0", pc) ∈ defaultConstraints ["sparse.table_0", "dense"]) ∧
    (("table_0", defaultTableConstraint) ∈ defaultConstraints ["sparse.table_0", "dense"] →
      defaultTableConstraint.sharding_types = [ShardingType.TABLE_WISE] ∧
      defaultTableConstraint.compute_kernels = [EmbeddingComputeKernel.QUANT]) := by
  constructor
  · exact ((claim_default_constraint_synthesis ["sparse.table_0", "dense"]).1 "table_0").mpr
      ⟨"sparse.table_0", by simp, by decide, by decide⟩
  · intro hmem
    exact (claim_default_constraint_synthesis ["sparse.table_0", "dense"]).2
      ("table_0", defaultTableConstraint) hmem

/-- Decoding a serialized string list recovers it. -/
theorem decodeStrList_roundtrip (l : List String) :
    decodeStrList (Json.arr (l.map Json.str)) = some l := by
  induction l with
  | nil => rfl
  | cons s rest ih =>
    simp only [decodeStrList, List.map_cons, List.mapM_cons] at *
    rw [ih]
    rfl

/-- Decoding a serialized `BatchingMetadata` record recovers it. -/
theorem decodeBatchingMetadata_roundtrip (m : BatchingMetadata) :
    decodeBatchingMetadata m.asdict = some m := by
  simp [BatchingMetadata.asdict, decodeBatchingMetadata, decodeStrList_roundtrip]

/-- Decoding a serialized `QualNameMetadata` record recovers it. -/
theorem decodeQualNameMetadata_roundtrip (m : QualNameMetadata) :
    decodeQualNameMetadata m.asdict = some m := rfl

/-- C9: serializing a map of `BatchingMetadata` records via
`batching_metadata_json`, or a map of `QualNameMetadata` records via
`qualname_metadata_json`, and deserializing the JSON yields the original
map: the round trip is lossless. -/
theorem claim_metadata_json_roundtrip :
    (∀ m : List (String × BatchingMetadata),
        decodeBatchingMetadataMap (batching_metadata_json m) = some m) ∧
    (∀ m : List (String × QualNameMetadata),
        decodeQualNameMetadataMap (qualname_metadata_json m) = some m) := by
  constructor
  · intro m
    induction m with
    | nil => rfl
    | cons kv rest ih =>
      simp only [batching_metadata_json, decodeBatchingMetadataMap, List.map_cons,
        List.mapM_cons] at *
      rw [decodeBatchingMetadata_roundtrip]
      rw [ih]
      rfl
  · intro m
    induction m with
    | nil => rfl
    | cons kv rest ih =>
      simp only [qualname_metadata_json, decodeQualNameMetadataMap, List.map_cons,
        List.mapM_cons] at *
      rw [decodeQualNameMetadata_roundtrip]
      rw [ih]
      rfl

/-- Lemma: `rsplitDotOnce` finds nothing on a dot-free character list. -/
theorem rsplitDotOnce_eq_none_of_no_dot (cs : List Char) (h : '.' ∉ cs) :
    rsplitDotOnce cs = none := by
  induction cs with
  | nil => rfl
  | cons c rest ih =>
    have hc : c ≠ '.' := fun hc => h (hc ▸ List.mem_cons_self c rest)
    have hrest : '.' ∉ rest := fun hm => h (List.mem_cons_of_mem c hm)
    rw [rsplitDotOnce, ih hrest]
    simp [hc]

/-- Lemma: `rsplitDotOnce` succeeds on a character list holding a dot. -/
theorem rsplitDotOnce_isSome_of_dot (cs : List Char) (h : '.' ∈ cs) :
    (rsplitDotOnce cs).isSome = true := by
  induction cs with
  | nil => cases h
  | cons c rest ih =>
    rw [rsplitDotOnce]
    cases hr : rsplitDotOnce rest with
    | some p => rfl
    | none =>
      rcases List.mem_cons.mp h with hc | hm
      · simp [hc.symm]
      · have hs := ih hm
        rw [hr] at hs
        cases hs

/-- C10: when a `FeatureProcessedEmbeddingBagCollection` is registered as
a direct child of the root module — its fully-qualified name holds no
dot — the classification loop of `quantize_inference_model` fails with
the `ValueError` of the two-variable unpacking of
`fp_module_fqn.rsplit(".", 1)` inside `_quantize_fp_module`, instead of
quantizing the module. -/
theorem claim_root_fp_module_split_fails
    (modules : List (String × String)) (n : String)
    (hmem : (n, FEATURE_PROCESSED_EBC_TYPE) ∈ modules)
    (hnodot : '.' ∉ n.toList) :
    ∃ msg, quantizeInferenceModelLoop DEFAULT_QUANT_MAPPING_KEYS modules =
      .error (.valueError msg) := by
  induction modules with
  | nil => cases hmem
  | cons nt rest ih =>
    rw [quantizeInferenceModelLoop]
    by_cases hmap : DEFAULT_QUANT_MAPPING_KEYS.contains nt.2 = true
    · rcases List.mem_cons.mp hmem with heq | hm
      · exfalso
        have hsnd : nt.2 = FEATURE_PROCESSED_EBC_TYPE := congrArg Prod.snd heq.symm
        rw [hsnd] at hmap
        exact absurd hmap (by decide)
      · simp only [hmap, if_true]
        exact ih hm
    · simp only [Bool.not_eq_true] at hmap
      rw [hmap]
      simp only [Bool.false_eq_true, if_false]
      by_cases hfp : nt.2 = FEATURE_PROCESSED_EBC_TYPE
      · simp only [hfp, if_true]
        cases hsplit : quantize_fp_module_splitName nt.1 with
        | error e =>
          rw [quantize_fp_module_splitName] at hsplit
          cases hps : fpSplitParentChild nt.1 with
          | some p => rw [hps] at hsplit; cases hsplit
          | none =>
            rw [hps] at hsplit
            exact ⟨"not enough values to unpack (expected 2, got 1)",
              by rw [← hsplit]⟩
        | ok p =>
          rcases List.mem_cons.mp hmem with heq | hm
          · exfalso
            have hn1 : nt.1 = n := (congrArg Prod.fst heq).symm
            rw [quantize_fp_module_splitName, fpSplitParentChild, hn1,
              rsplitDotOnce_eq_none_of_no_dot _ hnodot] at hsplit
            cases hsplit
          · exact ih hm
      · simp only [hfp, if_false]
        rcases List.mem_cons.mp hmem with heq | hm
        · exact absurd (congrArg Prod.snd heq.symm) hfp
        · exact ih hm

/-- C10 witness: a model whose feature-processed module sits at the root
under the dot-free name `"fpebc"` makes the loop fail. -/
theorem claim_root_fp_module_split_fails_witness :
    ∃ msg, quantizeInferenceModelLoop DEFAULT_QUANT_MAPPING_KEYS
        [("fpebc", FEATURE_PROCESSED_EBC_TYPE)] = .error (.valueError msg) :=
  claim_root_fp_module_split_fails [("fpebc", FEATURE_PROCESSED_EBC_TYPE)] "fpebc"
    (List.mem_singleton.mpr rfl) (by decide)

/-- When the requested dtype is not half precision, `buildReassign` raises
on the first non-embedding child. -/
theorem buildReassign_error_of_not_half
    (interfaceTypes additional : List String) (dtype : DType)
    (children : List (String × NModule))
    (hdtype : dtype ≠ DType.float16)
    (hchild : ∃ nc ∈ children,
        isEmbeddingModuleType interfaceTypes additional nc.2.typeName = false) :
    buildReassign interfaceTypes additional dtype children =
      .error (.unsupportedPrecision "only fp16 is supported for non-embedding module lowering") := by
  induction children with
  | nil => obtain ⟨nc, hnc, -⟩ := hchild; cases hnc
  | cons nc rest ih =>
    rw [buildReassign]
    by_cases hemb : isEmbeddingModuleType interfaceTypes additional nc.2.typeName = true
    · simp only [hemb, if_true]
      obtain ⟨nc', hnc', hne⟩ := hchild
      rcases List.mem_cons.mp hnc' with heq | hm
      · rw [heq] at hne
        rw [hne] at hemb
        cases hemb
      · exact ih ⟨nc', hm, hne⟩
    · simp only [Bool.not_eq_true] at hemb
      simp only [hemb, Bool.false_eq_true, if_false, hdtype, if_neg hdtype]

/-- C6: `quantize_dense` with a requested lowering dtype other than half
precision, applied to a predict module having at least one direct child
that is neither an embedding-collection interface nor among
`additional_embedding_module_type`, fails with the
single-supported-precision error (the spec's `UnsupportedPrecisionError`,
raised as `NotImplementedError` with the message below). -/
theorem claim_unsupported_precision
    (interfaceTypes additional : List String) (dtype : DType) (module : NModule)
    (hdtype : dtype ≠ DType.float16)
    (hchild : ∃ nc ∈ module.children,
        isEmbeddingModuleType interfaceTypes additional nc.2.typeName = false) :
    quantize_dense interfaceTypes additional dtype module =
      .error (.unsupportedPrecision "only fp16 is supported for non-embedding module lowering") := by
  rw [quantize_dense, buildReassign_error_of_not_half interfaceTypes additional dtype
    module.children hdtype hchild]

/-- C6 witness: a float32 lowering request on a predict module with a
dense `Linear` child fails. -/
theorem claim_unsupported_precision_witness :
    quantize_dense exampleInterfaceTypes [] DType.float32 denseExampleGraph =
      .error (.unsupportedPrecision "only fp16 is supported for non-embedding module lowering") :=
  claim_unsupported_precision exampleInterfaceTypes [] DType.float32 denseExampleGraph
    (by decide)
    ⟨("mlp", NModule.mk "torch.nn.modules.linear.Linear" false false []),
      by rw [denseExampleGraph]; exact List.mem_cons_of_mem _ (List.mem_singleton.mpr rfl),
      by decide⟩

/-- The processing order is insensitive to the enumeration order of the
tables: permuted inputs sort identically. -/
theorem sortTables_perm_eq (l₁ l₂ : List PlannerTable) (h : l₁.Perm l₂) :
    sortTables l₁ = sortTables l₂ :=
  List.eq_of_perm_of_sorted
    ((List.perm_insertionSort planOrder l₁).trans
      (h.trans (List.perm_insertionSort planOrder l₂).symm))
    (List.sorted_insertionSort planOrder l₁)
    (List.sorted_insertionSort planOrder l₂)

/-- C2: the planner invoked by `shard_quant_model` is deterministic —
identical inputs (same table set with the same estimator outputs, same
topology capacity and world size, same reservation percentage) produce an
identical Plan; in particular the Plan does not depend on the enumeration
order of the tables beyond the explicit largest-first, name-tie-broken
processing order, so any re-enumeration (permutation) of the same table
set yields a bit-identical result. -/
theorem claim_plan_determinism (cap : Option Nat) (percent ws : Nat)
    (tables₁ tables₂ : List PlannerTable) (h : tables₁.Perm tables₂) :
    planTables cap percent ws tables₁ = planTables cap percent ws tables₂ := by
  rw [planTables, planTables, sortTables_perm_eq tables₁ tables₂ h]

/-- C2 witness: two enumerations of the same two tables plan
identically. -/
theorem claim_plan_determinism_witness :
    planTables (some 100) 0 2 [⟨"a_table", 60⟩, ⟨"b_table", 50⟩] =
      planTables (some 100) 0 2 [⟨"b_table", 50⟩, ⟨"a_table", 60⟩] :=
  claim_plan_determinism (some 100) 0 2 _ _ (List.Perm.swap _ _ _)

/-- A chosen device index is a real device. -/
theorem firstFit_lt_length (cap : Option Nat) (percent cost : Nat) :
    ∀ (loads : List Nat) (d : Nat), firstFit cap percent cost loads = some d →
      d < loads.length
  | [], d, h => by cases h
  | load :: rest, d, h => by
    rw [firstFit] at h
    by_cases hf : fitsOn cap percent load cost = true
    · rw [if_pos hf] at h
      cases h
      exact Nat.succ_pos _
    · rw [if_neg hf] at h
      cases hr : firstFit cap percent cost rest with
      | none => rw [hr] at h; cases h
      | some d' =>
        rw [hr] at h
        cases h
        exact Nat.succ_lt_succ (firstFit_lt_length cap percent cost rest d' hr)

/-- The chosen device admits the table. -/
theorem firstFit_fits (cap : Option Nat) (percent cost : Nat) :
    ∀ (loads : List Nat) (d : Nat), firstFit cap percent cost loads = some d →
      fitsOn cap percent (loads.getD d 0) cost = true
  | [], d, h => by cases h
  | load :: rest, d, h => by
    rw [firstFit] at h
    by_cases hf : fitsOn cap percent load cost = true
    · rw [if_pos hf] at h
      cases h
      exact hf
    · rw [if_neg hf] at h
      cases hr : firstFit cap percent cost rest with
      | none => rw [hr] at h; cases h
      | some d' =>
        rw [hr] at h
        cases h
        exact firstFit_fits cap percent cost rest d' hr

/-- Placement does not change the number of devices. -/
theorem placeSorted_length (cap : Option Nat) (percent : Nat) :
    ∀ (ts : List PlannerTable) (loads : List Nat) (asg : List (PlannerTable × Nat))
      (final : List Nat), placeSorted cap percent ts loads = .ok (asg, final) →
      final.length = loads.length
  | [], loads, asg, final, h => by
    rw [placeSorted] at h
    cases h
    rfl
  | t :: ts, loads, asg, final, h => by
    rw [placeSorted] at h
    cases hf : firstFit cap percent t.storage loads with
    | none => simp only [hf] at h; cases h
    | some d =>
      simp only [hf] at h
      cases hp : placeSorted cap percent ts (loads.set d (loads.getD d 0 + t.storage)) with
      | error e => simp only [hp] at h; cases h
      | ok r =>
        obtain ⟨asg', final'⟩ := r
        simp only [hp] at h
        cases h
        have := placeSorted_length cap percent ts _ _ _ hp
        rw [this, List.length_set]

/-- The final load of every device is its initial load plus the storage
the returned assignment places on it. -/
theorem placeSorted_loads (cap : Option Nat) (percent : Nat) :
    ∀ (ts : List PlannerTable) (loads : List Nat) (asg : List (PlannerTable × Nat))
      (final : List Nat), placeSorted cap percent ts loads = .ok (asg, final) →
      ∀ d : Nat, final.getD d 0 = loads.getD d 0 + sumAssignedTo asg d
  | [], loads, asg, final, h => by
    rw [placeSorted] at h
    cases h
    intro d
    simp [sumAssignedTo]
  | t :: ts, loads, asg, final, h => by
    rw [placeSorted] at h
    cases hf : firstFit cap percent t.storage loads with
    | none => simp only [hf] at h; cases h
    | some i =>
      simp only [hf] at h
      cases hp : placeSorted cap percent ts (loads.set i (loads.getD i 0 + t.storage)) with
      | error e => simp only [hp] at h; cases h
      | ok r =>
        obtain ⟨asg', final'⟩ := r
        simp only [hp] at h
        cases h
        intro d
        have ih := placeSorted_loads cap percent ts _ _ _ hp d
        have hilt : i < loads.length := firstFit_lt_length cap percent t.storage loads i hf
        by_cases hdi : i = d
        · subst hdi
          rw [ih]
          have hset : (loads.set i (loads.getD i 0 + t.storage)).getD i 0 =
              loads.getD i 0 + t.storage := by
            simp [List.getD_eq_getElem?_getD, List.getElem?_set_self', hilt]
          rw [hset]
          simp [sumAssignedTo]
          omega
        · rw [ih]
          have hset : (loads.set i (loads.getD i 0 + t.storage)).getD d 0 =
              loads.getD d 0 := by
            simp [List.getD_eq_getElem?_getD, List.getElem?_set_ne hdi]
          rw [hset]
          simp [sumAssignedTo, hdi]

/-- Under a finite capacity, every device's load stays within the
effective budget throughout placement. -/
theorem placeSorted_bound (c percent : Nat) :
    ∀ (ts : List PlannerTable) (loads : List Nat) (asg : List (PlannerTable × Nat))
      (final : List Nat), (∀ l ∈ loads, l ≤ effCap c percent) →
      placeSorted (some c) percent ts loads = .ok (asg, final) →
      ∀ l ∈ final, l ≤ effCap c percent
  | [], loads, asg, final, hle, h => by
    rw [placeSorted] at h
    cases h
    exact hle
  | t :: ts, loads, asg, final, hle, h => by
    rw [placeSorted] at h
    cases hf : firstFit (some c) percent t.storage loads with
    | none => simp only [hf] at h; cases h
    | some i =>
      simp only [hf] at h
      cases hp : placeSorted (some c) percent ts (loads.set i (loads.getD i 0 + t.storage)) with
      | error e => simp only [hp] at h; cases h
      | ok r =>
        obtain ⟨asg', final'⟩ := r
        simp only [hp] at h
        cases h
        have hfits := firstFit_fits (some c) percent t.storage loads i hf
        rw [fitsOn] at hfits
        have hnew : loads.getD i 0 + t.storage ≤ effCap c percent := by
          exact of_decide_eq_true hfits
        refine placeSorted_bound c percent ts _ _ _ ?_ hp
        intro l hl
        rcases List.mem_or_eq_of_mem_set hl with hmem | heq
        · exact hle l hmem
        · rw [heq]
          exact hnew

/-- With a zero reservation percentage — what `shard_quant_model` passes —
the effective budget is the full capacity. -/
theorem effCap_zero (c : Nat) : effCap c 0 = c := by
  rw [effCap, Nat.sub_zero]
  exact Nat.mul_div_cancel c (by norm_num)

/-- C1: for every Plan produced by the planner that `shard_quant_model`
invokes, and for every device of the topology, the sum of the
storage-estimate costs of the shards assigned to that device is at most
the device capacity multiplied by (1 minus the reservation fraction) —
`effCap c percent`; `shard_quant_model` itself passes `percent = 0`, for
which the bound is the full capacity. -/
theorem claim_capacity_invariant (percent ws : Nat) (tables : List PlannerTable)
    (p : List (PlannerTable × Nat)) (c : Nat)
    (hplan : planTables (some c) percent ws tables = .ok p)
    (d : Nat) (hd : d < ws) :
    sumAssignedTo p d ≤ effCap c percent := by
  rw [planTables] at hplan
  cases hps : placeSorted (some c) percent (sortTables tables) (List.replicate ws 0) with
  | error e => rw [hps] at hplan; cases hplan
  | ok r =>
    obtain ⟨asg, final⟩ := r
    rw [hps] at hplan
    cases hplan
    have hloads := placeSorted_loads (some c) percent (sortTables tables)
      (List.replicate ws 0) asg final hps d
    have hrep : (List.replicate ws 0).getD d 0 = 0 := by
      rcases Nat.lt_or_ge d ws with hlt | hge
      · simp [List.getD_eq_getElem?_getD, List.getElem?_replicate, hlt]
      · simp [List.getD_eq_getElem?_getD, List.getElem?_replicate, Nat.not_lt.mpr hge]
    rw [hrep, Nat.zero_add] at hloads
    have hlen : final.length = ws := by
      rw [placeSorted_length (some c) percent (sortTables tables)
        (List.replicate ws 0) asg final hps, List.length_replicate]
    have hdl : d < final.length := by rw [hlen]; exact hd
    have hmem : final.getD d 0 ∈ final := by
      rw [List.getD_eq_getElem?_getD, List.getElem?_eq_getElem hdl]
      exact List.getElem_mem hdl
    have hbound := placeSorted_bound c percent (sortTables tables)
      (List.replicate ws 0) asg final
      (fun l hl => by rw [List.eq_of_mem_replicate hl]; exact Nat.zero_le _)
      hps (final.getD d 0) hmem
    rw [hloads] at hbound
    exact hbound

/-- C1 witness: the spec §8 scenario — two devices of capacity 100,
tables of cost 60, 50, 40; the produced plan loads device 0 to 100. -/
theorem claim_capacity_invariant_witness :
    sumAssignedTo [(⟨"table_a", 60⟩, 0), (⟨"table_b", 50⟩, 1), (⟨"table_c", 40⟩, 0)] 0 ≤
      effCap 100 0 :=
  claim_capacity_invariant 0 2 [⟨"table_a", 60⟩, ⟨"table_b", 50⟩, ⟨"table_c", 40⟩]
    [(⟨"table_a", 60⟩, 0), (⟨"table_b", 50⟩, 1), (⟨"table_c", 40⟩, 0)] 100
    rfl 0 (by decide)

/-- C4: a single table whose storage estimate exceeds the capacity of the
only device makes the planner invoked by `shard_quant_model` fail with
`CapacityExceededError` naming the offending table and the shortfall, and
no Plan is produced. -/
theorem claim_capacity_exceeded_single_table (c : Nat) (t : PlannerTable)
    (h : c < t.storage) :
    shard_quant_model_plan (some c) 1 [t] =
      .error (.capacityExceeded t.name (t.storage - c)) := by
  have hfit : fitsOn (some c) 0 0 t.storage = false := by
    simp only [fitsOn, effCap_zero, Nat.zero_add, decide_eq_false_iff_not, Nat.not_le]
    exact h
  simp [shard_quant_model_plan, planTables, sortTables, placeSorted, firstFit, hfit,
    shortfallOf, minLoad, effCap_zero, Except.map]

/-- C4 witness: a table of cost 15 on a single device of capacity 10. -/
theorem claim_capacity_exceeded_single_table_witness :
    shard_quant_model_plan (some 10) 1 [⟨"big_table", 15⟩] =
      .error (.capacityExceeded "big_table" 5) :=
  claim_capacity_exceeded_single_table 10 ⟨"big_table", 15⟩ (by decide)

/-- With an unbounded capacity every placement succeeds: each table goes
to the first device. -/
theorem placeSorted_unbounded (percent : Nat) :
    ∀ (ts : List PlannerTable) (loads : List Nat), loads ≠ [] →
      ∃ r, placeSorted none percent ts loads = .ok r
  | [], loads, _ => ⟨([], loads), by rw [placeSorted]⟩
  | t :: ts, [], h => absurd rfl h
  | t :: ts, l :: rest, _ => by
    have hff : firstFit none percent t.storage (l :: rest) = some 0 := by
      rw [firstFit]
      rfl
    obtain ⟨r, hr⟩ := placeSorted_unbounded percent ts
      ((l :: rest).set 0 ((l :: rest).getD 0 0 + t.storage)) (by simp)
    refine ⟨((t, 0) :: r.1, r.2), ?_⟩
    rw [placeSorted]
    simp only [hff, hr]

/-- C8 counterexample: the claim says an omitted `device_memory_size`
means the capacity is queried from the active device; but with
`compute_device = "cpu"` (or CUDA unavailable) the code sets `hbm_cap =
None` and never uses the queried value. -/
theorem claim_capacity_resolution_counterexample :
    resolveHbmCap none true "cpu" 42 = none ∧ resolveHbmCap none true "cpu" 42 ≠ some 42 := by
  constructor
  · rfl
  · intro h
    cases h

/-- C8 (amended): an explicit `device_memory_size` override becomes the
topology capacity; when it is omitted the capacity is queried from the
active device only if CUDA is available and the compute device is
`"cuda"`, and is `None` otherwise; a capacity of `None` is treated by the
planner as unbounded / non-binding (every candidate is feasible and no
`CapacityExceededError` can arise). -/
theorem claim_capacity_resolution_amended :
    (∀ (s : Nat) (ca : Bool) (cd : String) (q : Nat),
        resolveHbmCap (some s) ca cd q = some s) ∧
    (∀ q : Nat, resolveHbmCap none true "cuda" q = some q) ∧
    (∀ (ca : Bool) (cd : String) (q : Nat), (ca = true → cd ≠ "cuda") →
        resolveHbmCap none ca cd q = none) ∧
    (∀ percent load cost : Nat, fitsOn none percent load cost = true) ∧
    (∀ (percent ws : Nat) (tables : List PlannerTable), 0 < ws →
        ∃ p, planTables none percent ws tables = .ok p) := by
  refine ⟨fun s ca cd q => rfl, fun q => by simp [resolveHbmCap], ?_, fun _ _ _ => rfl, ?_⟩
  · intro ca cd q hcd
    cases ca with
    | false => rfl
    | true => simp [resolveHbmCap, hcd rfl]
  · intro percent ws tables hws
    have hne : List.replicate ws 0 ≠ [] := by
      intro h
      rw [← List.length_eq_zero, List.length_replicate] at h
      omega
    obtain ⟨r, hr⟩ := placeSorted_unbounded percent (sortTables tables)
      (List.replicate ws 0) hne
    exact ⟨r.1, by rw [planTables, hr]; rfl⟩

/-- C8 witness: with CUDA unavailable and no override the capacity is
`None`, and the planner still produces a Plan for any table set on one
device. -/
theorem claim_capacity_resolution_amended_witness :
    resolveHbmCap none false "cuda" 7 = none ∧
    ∃ p, planTables none 0 1 [⟨"huge_table", 1000000⟩] = .ok p :=
  ⟨claim_capacity_resolution_amended.2.2.1 false "cuda" 7 (fun h => by cases h),
   claim_capacity_resolution_amended.2.2.2.2 0 1 [⟨"huge_table", 1000000⟩] (by decide)⟩

/-- Unfolding of `fqnsList` on a cons, with the head module unconstrained. -/
theorem fqnsList_cons (n : String) (c : NModule) (rest : List (String × NModule)) :
    fqnsList ((n, c) :: rest) =
      [n] :: (fqnsList c.children).map (List.cons n) ++ fqnsList rest := by
  cases c
  rw [fqnsList, NModule.children]

/-- Lemma: `fqnsList` distributes over append. -/
theorem fqnsList_append (a b : List (String × NModule)) :
    fqnsList (a ++ b) = fqnsList a ++ fqnsList b := by
  induction a with
  | nil => simp [fqnsList]
  | cons nc rest ih =>
    obtain ⟨n, c⟩ := nc
    simp [List.cons_append, fqnsList_cons, ih, List.append_assoc]

/-- The half cast leaves the set of fully-qualified names untouched. -/
theorem fqnsList_halfCastList : ∀ cs : List (String × NModule),
    fqnsList (halfCastList cs) = fqnsList cs
  | [] => by rw [halfCastList]
  | (n, .mk t h k cs) :: rest => by
    rw [halfCastList, fqnsList, fqnsList, fqnsList_halfCastList cs,
      fqnsList_halfCastList rest]

/-- Children of the half-cast hooked copy. -/
theorem children_halfHooked (c : NModule) :
    (NModule.halfHooked c).children = halfCastList c.children := by
  cases c
  rw [NModule.halfHooked, NModule.children, NModule.children]

/-- A successful lookup is a membership. -/
theorem lookup_mem_assoc {β : Type} (k : String) (r : List (String × β)) (v : β)
    (h : r.lookup k = some v) : (k, v) ∈ r := by
  induction r with
  | nil => cases h
  | cons kv rest ih =>
    obtain ⟨k', v'⟩ := kv
    rw [List.lookup] at h
    cases hk : (k == k') with
    | true =>
      rw [hk] at h
      cases h
      rw [eq_of_beq hk]
      exact List.mem_cons_self _ _
    | false =>
      rw [hk] at h
      exact List.mem_cons_of_mem _ (ih h)

/-- In an association list with distinct keys, a key determines its
value. -/
theorem assoc_nodup_val_eq {β : Type} (cs : List (String × β))
    (hnodup : (cs.map Prod.fst).Nodup) (n : String) (c c' : β)
    (h1 : (n, c) ∈ cs) (h2 : (n, c') ∈ cs) : c = c' := by
  induction cs with
  | nil => cases h1
  | cons kv rest ih =>
    obtain ⟨k', v'⟩ := kv
    simp only [List.map_cons, List.nodup_cons] at hnodup
    rcases List.mem_cons.mp h1 with he1 | hm1
    · rcases List.mem_cons.mp h2 with he2 | hm2
      · exact congrArg Prod.snd (he1.trans he2.symm)
      · exfalso
        apply hnodup.1
        have hk : k' = n := (congrArg Prod.fst he1).symm
        rw [hk]
        exact List.mem_map_of_mem Prod.fst hm2
    · rcases List.mem_cons.mp h2 with he2 | hm2
      · exfalso
        apply hnodup.1
        have hk : k' = n := (congrArg Prod.fst he2).symm
        rw [hk]
        exact List.mem_map_of_mem Prod.fst hm1
      · exact ih hnodup.2 hm1 hm2

/-- Every entry recorded in `reassign` is the half-cast hooked copy of
the child of that name. -/
theorem buildReassign_mem (interfaceTypes additional : List String) (dtype : DType) :
    ∀ (children r : List (String × NModule)),
      buildReassign interfaceTypes additional dtype children = .ok r →
      ∀ p ∈ r, ∃ c, (p.1, c) ∈ children ∧ p.2 = c.halfHooked
  | [], r, h, p, hp => by
    rw [buildReassign] at h
    cases h
    cases hp
  | (n, m) :: rest, r, h, p, hp => by
    rw [buildReassign] at h
    by_cases hemb : isEmbeddingModuleType interfaceTypes additional m.typeName = true
    · rw [if_pos hemb] at h
      obtain ⟨c, hc, he⟩ := buildReassign_mem interfaceTypes additional dtype rest r h p hp
      exact ⟨c, List.mem_cons_of_mem _ hc, he⟩
    · rw [if_neg hemb] at h
      by_cases hdt : dtype = DType.float16
      · rw [if_pos hdt] at h
        cases hb : buildReassign interfaceTypes additional dtype rest with
        | error e => rw [hb] at h; cases h
        | ok r' =>
          rw [hb] at h
          cases h
          rcases List.mem_cons.mp hp with he | hm
          · subst he
            exact ⟨m, List.mem_cons_self _ _, rfl⟩
          · obtain ⟨c, hc, hce⟩ :=
              buildReassign_mem interfaceTypes additional dtype rest r' hb p hm
            exact ⟨c, List.mem_cons_of_mem _ hc, hce⟩
      · rw [if_neg hdt] at h
        cases h

/-- Rewriting children through `reassign` leaves the fully-qualified name
set untouched when every recorded entry is the half-cast hooked copy of
the same-named child. -/
theorem fqnsList_applyReassign (children r : List (String × NModule))
    (h : ∀ nc ∈ children, ∀ q, r.lookup nc.1 = some q → q = nc.2.halfHooked) :
    fqnsList (applyReassign children r) = fqnsList children := by
  induction children with
  | nil => rw [applyReassign, List.map_nil]
  | cons nc rest ih =>
    obtain ⟨n, c⟩ := nc
    rw [applyReassign, List.map_cons]
    have htail : List.map (fun nc => match r.lookup nc.1 with
        | some m => (nc.1, m)
        | none => nc) rest = applyReassign rest r := by
      rw [applyReassign]
    cases hl : r.lookup (n, c).1 with
    | none =>
      simp only [hl]
      rw [htail, fqnsList_cons, fqnsList_cons,
        ih (fun nc hnc q hq => h nc (List.mem_cons_of_mem _ hnc) q hq)]
    | some q =>
      have hq : q = c.halfHooked := h (n, c) (List.mem_cons_self _ _) q hl
      simp only [hl]
      rw [htail, fqnsList_cons, fqnsList_cons, hq, children_halfHooked,
        fqnsList_halfCastList,
        ih (fun nc hnc q hq => h nc (List.mem_cons_of_mem _ hnc) q hq)]

/-- Lemma: `quantize_dense` rewrites only module objects: the set of
fully-qualified names of a predict module with uniquely named children is
unchanged by a successful rewrite. -/
theorem quantize_dense_preserves_fqns (interfaceTypes additional : List String)
    (dtype : DType) (m m' : NModule)
    (hnodup : (m.children.map Prod.fst).Nodup)
    (h : quantize_dense interfaceTypes additional dtype m = .ok m') :
    m'.fqns = m.fqns := by
  rw [quantize_dense] at h
  cases hb : buildReassign interfaceTypes additional dtype m.children with
  | error e => rw [hb] at h; cases h
  | ok r =>
    simp only [hb] at h
    cases h
    rw [NModule.fqns, NModule.fqns, NModule.children]
    refine fqnsList_applyReassign m.children r ?_
    intro nc hnc q hq
    obtain ⟨c, hc, hce⟩ := buildReassign_mem interfaceTypes additional dtype
      m.children r hb (nc.1, q) (lookup_mem_assoc nc.1 r q hq)
    have hcnc : c = nc.2 := assoc_nodup_val_eq m.children hnodup nc.1 c nc.2 hc
      (by rw [← Prod.mk.eta (p := nc)] at hnc; exact hnc)
    have hq2 : q = c.halfHooked := hce
    rw [hq2, hcnc]

/-- Membership in the fully-qualified name list of a children list. -/
theorem mem_fqnsList_iff (s : List String) (cs : List (String × NModule)) :
    s ∈ fqnsList cs ↔ ∃ nc, nc ∈ cs ∧
      (s = [nc.1] ∨ ∃ s', s = nc.1 :: s' ∧ s' ∈ fqnsList nc.2.children) := by
  induction cs with
  | nil =>
    rw [fqnsList]
    simp
  | cons nc rest ih =>
    obtain ⟨n, c⟩ := nc
    rw [fqnsList_cons]
    constructor
    · intro hs
      rcases List.mem_cons.mp hs with h1 | hmem
      · exact ⟨(n, c), List.mem_cons_self _ _, Or.inl h1⟩
      · rcases List.mem_append.mp hmem with hmap | hrest
        · obtain ⟨s', hs', heq⟩ := List.mem_map.mp hmap
          exact ⟨(n, c), List.mem_cons_self _ _, Or.inr ⟨s', heq.symm, hs'⟩⟩
        · obtain ⟨nc', hnc', hcase⟩ := ih.mp hrest
          exact ⟨nc', List.mem_cons_of_mem _ hnc', hcase⟩
    · rintro ⟨nc', hnc', hcase⟩
      rcases List.mem_cons.mp hnc' with heq | hmem
      · subst heq
        rcases hcase with h1 | ⟨s', hs', hmem'⟩
        · rw [h1]
          exact List.mem_cons_self _ _
        · refine List.mem_cons_of_mem _ (List.mem_append_left _ ?_)
          rw [hs']
          exact List.mem_map_of_mem (List.cons n) hmem'
      · exact List.mem_cons_of_mem _ (List.mem_append_right _ (ih.mpr ⟨nc', hmem, hcase⟩))

/-- Lemma: `register_module` on a parent: every fully-qualified name not below
the registered name is preserved, and the registered name is present
afterwards. -/
theorem registerChild_frame (m : NModule) (name : String) (q : NModule) :
    (∀ s : List String, ¬ [name] <+: s →
        (s ∈ (registerChild m name q).fqns ↔ s ∈ m.fqns)) ∧
    [name] ∈ (registerChild m name q).fqns := by
  rw [registerChild]
  by_cases hc : (m.children.map Prod.fst).contains name = true
  · rw [if_pos hc]
    constructor
    · intro s hns
      rw [NModule.fqns, NModule.fqns, NModule.children, mem_fqnsList_iff, mem_fqnsList_iff]
      constructor
      · rintro ⟨nc', hnc', hcase⟩
        obtain ⟨nc, hnc, hfnc⟩ := List.mem_map.mp hnc'
        by_cases hn : nc.1 = name
        · exfalso
          have h1 : nc'.1 = name := by rw [← hfnc]; simp [hn]
          rcases hcase with h2 | ⟨s', h2, _⟩
          · exact hns (by rw [h2, h1])
          · exact hns (by rw [h2, h1]; exact ⟨s', rfl⟩)
        · have hid : nc' = nc := by rw [← hfnc]; simp [hn]
          exact ⟨nc, hnc, hid ▸ hcase⟩
      · rintro ⟨nc, hnc, hcase⟩
        by_cases hn : nc.1 = name
        · exfalso
          rcases hcase with h2 | ⟨s', h2, _⟩
          · exact hns (by rw [h2, hn])
          · exact hns (by rw [h2, hn]; exact ⟨s', rfl⟩)
        · refine ⟨nc, ?_, hcase⟩
          have hid : (fun nc => if nc.1 = name then (nc.1, q) else nc) nc = nc := by
            simp [hn]
          exact hid ▸ List.mem_map_of_mem _ hnc
    · rw [NModule.fqns, NModule.children, mem_fqnsList_iff]
      obtain ⟨y, hy, hy1⟩ := List.mem_map.mp (List.mem_of_elem_eq_true hc)
      refine ⟨(y.1, q), ?_, Or.inl (by rw [hy1])⟩
      have hfy : (fun nc => if nc.1 = name then (nc.1, q) else nc) y = (y.1, q) := by
        simp [hy1]
      exact hfy ▸ List.mem_map_of_mem _ hy
  · rw [if_neg hc]
    constructor
    · intro s hns
      rw [NModule.fqns, NModule.fqns, NModule.children, fqnsList_append,
        List.mem_append]
      have hB : s ∉ fqnsList [(name, q)] := by
        intro hmem
        obtain ⟨nc', hnc', hcase⟩ := (mem_fqnsList_iff s [(name, q)]).mp hmem
        have h1 : nc' = (name, q) := List.mem_singleton.mp hnc'
        rcases hcase with h2 | ⟨s', h2, _⟩
        · exact hns (by rw [h2, h1])
        · exact hns (by rw [h2, h1]; exact ⟨s', rfl⟩)
      constructor
      · rintro (h | h)
        · exact h
        · exact absurd h hB
      · exact Or.inl
    · rw [NModule.fqns, NModule.children, fqnsList_append]
      refine List.mem_append_right _ ?_
      rw [fqnsList_cons]
      exact List.mem_cons_self _ _

/-- The module swap of `_quantize_fp_module` is a frame rewrite: every
fully-qualified name that does not extend the swapped module's name is
preserved in both directions, and the swapped name itself stays
registered under the same parent. -/
theorem setChildAtPath_frame :
    ∀ (ps : List String) (m : NModule) (name : String) (q : NModule),
      (∀ s : List String, ¬ (ps ++ [name]) <+: s →
          (s ∈ (setChildAtPath m ps name q).fqns ↔ s ∈ m.fqns)) ∧
      ((ps ++ [name]) ∈ m.fqns → (ps ++ [name]) ∈ (setChildAtPath m ps name q).fqns)
  | [], m, name, q => by
    rw [setChildAtPath]
    exact ⟨fun s hns => (registerChild_frame m name q).1 s (by rw [List.nil_append] at hns; exact hns),
      fun _ => (registerChild_frame m name q).2⟩
  | p :: ps', m, name, q => by
    rw [setChildAtPath]
    have hpath : (p :: ps') ++ [name] = p :: (ps' ++ [name]) := rfl
    constructor
    · intro s hns
      rw [NModule.fqns, NModule.fqns, NModule.children, mem_fqnsList_iff, mem_fqnsList_iff]
      constructor
      · rintro ⟨nc', hnc', hcase⟩
        obtain ⟨nc, hnc, hfnc⟩ := List.mem_map.mp hnc'
        by_cases hn : nc.1 = p
        · have hfnc2 : nc' = (nc.1, setChildAtPath nc.2 ps' name q) := by
            rw [← hfnc]
            simp [hn]
          rcases hcase with h2 | ⟨s', h2, hmem'⟩
          · refine ⟨nc, hnc, Or.inl ?_⟩
            rw [h2, hfnc2]
          · have h1 : nc'.1 = nc.1 := by rw [hfnc2]
            have hpre : ¬ (ps' ++ [name]) <+: s' := by
              intro hp
              apply hns
              rw [hpath, h2, h1, hn]
              exact List.cons_prefix_cons.mpr ⟨rfl, hp⟩
            have hmem2 : s' ∈ (setChildAtPath nc.2 ps' name q).fqns := by
              rw [NModule.fqns]
              have hch : nc'.2.children = (setChildAtPath nc.2 ps' name q).children := by
                rw [hfnc2]
              rw [← hch]
              exact hmem'
            exact ⟨nc, hnc, Or.inr ⟨s', by rw [h2, h1],
              ((setChildAtPath_frame ps' nc.2 name q).1 s' hpre).mp hmem2⟩⟩
        · have hid : nc' = nc := by rw [← hfnc]; simp [hn]
          exact ⟨nc, hnc, hid ▸ hcase⟩
      · rintro ⟨nc, hnc, hcase⟩
        by_cases hn : nc.1 = p
        · have hmem2 : (fun nc => if nc.1 = p
              then (nc.1, setChildAtPath nc.2 ps' name q) else nc) nc =
              (nc.1, setChildAtPath nc.2 ps' name q) := by
            simp [hn]
          rcases hcase with h2 | ⟨s', h2, hmem'⟩
          · exact ⟨(nc.1, setChildAtPath nc.2 ps' name q),
              hmem2 ▸ List.mem_map_of_mem _ hnc, Or.inl h2⟩
          · have hpre : ¬ (ps' ++ [name]) <+: s' := by
              intro hp
              apply hns
              rw [hpath, h2, hn]
              exact List.cons_prefix_cons.mpr ⟨rfl, hp⟩
            refine ⟨(nc.1, setChildAtPath nc.2 ps' name q),
              hmem2 ▸ List.mem_map_of_mem _ hnc, Or.inr ⟨s', h2, ?_⟩⟩
            have := ((setChildAtPath_frame ps' nc.2 name q).1 s' hpre).mpr
              (by rw [NModule.fqns] at *; exact hmem')
            rw [NModule.fqns] at this
            exact this
        · have hid : (fun nc => if nc.1 = p
              then (nc.1, setChildAtPath nc.2 ps' name q) else nc) nc = nc := by
            simp [hn]
          exact ⟨nc, hid ▸ List.mem_map_of_mem _ hnc, hcase⟩
    · intro hpres
      rw [NModule.fqns, NModule.children, mem_fqnsList_iff]
      rw [NModule.fqns, mem_fqnsList_iff] at hpres
      obtain ⟨nc, hnc, hcase⟩ := hpres
      rcases hcase with h2 | ⟨s', h2, hmem'⟩
      · exfalso
        rw [hpath] at h2
        have : ps' ++ [name] = [] := List.tail_eq_of_cons_eq h2
        exact absurd this (by simp)
      · rw [hpath] at h2
        have hn : nc.1 = p := (List.head_eq_of_cons_eq h2).symm
        have hs' : s' = ps' ++ [name] := (List.tail_eq_of_cons_eq h2).symm
        have hmem2 : (ps' ++ [name]) ∈ (setChildAtPath nc.2 ps' name q).fqns := by
          refine (setChildAtPath_frame ps' nc.2 name q).2 ?_
          rw [NModule.fqns]
          rw [hs'] at hmem'
          exact hmem'
        have hfm : (fun nc => if nc.1 = p
            then (nc.1, setChildAtPath nc.2 ps' name q) else nc) nc =
            (nc.1, setChildAtPath nc.2 ps' name q) := by
          simp [hn]
        refine ⟨(nc.1, setChildAtPath nc.2 ps' name q),
          hfm ▸ List.mem_map_of_mem _ hnc, Or.inr ⟨ps' ++ [name], ?_, ?_⟩⟩
        · rw [hpath, hn]
        · rw [NModule.fqns] at hmem2
          exact hmem2

/-- C3 counterexample: quantizing a model whose
`FeatureProcessedEmbeddingBagCollection` has an internal
feature-processor child swaps in a quantized module with different
internal children (`from_float` builds a new structure), so the full set
of reachable fully-qualified names changes: `sparse.fpebc.fp` exists
before the swap and not after. -/
theorem claim_name_preservation_counterexample :
    ["sparse", "fpebc", "fp"] ∈ fpExampleGraph.fqns ∧
    ["sparse", "fpebc", "fp"] ∉
      (setChildAtPath fpExampleGraph ["sparse"] "fpebc" fpExampleQuantized).fqns := by
  constructor
  · simp [fpExampleGraph, NModule.fqns, NModule.children, fqnsList]
  · simp [fpExampleGraph, fpExampleQuantized, setChildAtPath, registerChild,
      NModule.fqns, NModule.children, NModule.typeName, NModule.isHalf,
      NModule.hasHook, fqnsList]

/-- C3 (amended): the rewrites of `quantize_dense` and of the
feature-processed swap re-register every replaced module under the same
name in the same parent.  `quantize_dense` (whose replacement `.half()`
is structure-preserving) leaves the whole fully-qualified name set
unchanged; the direct swap preserves every fully-qualified name that does
not extend the swapped module's name, and keeps the swapped name
registered, while names strictly inside the swapped module may change
with the replacement's internal structure. -/
theorem claim_name_preservation_amended
    (interfaceTypes additional : List String) (dtype : DType)
    (m m' mg : NModule) (ps : List String) (name : String) (q : NModule) :
    ((m.children.map Prod.fst).Nodup →
        quantize_dense interfaceTypes additional dtype m = .ok m' →
        m'.fqns = m.fqns) ∧
    (∀ s : List String, ¬ (ps ++ [name]) <+: s →
        (s ∈ (setChildAtPath mg ps name q).fqns ↔ s ∈ mg.fqns)) ∧
    ((ps ++ [name]) ∈ mg.fqns → (ps ++ [name]) ∈ (setChildAtPath mg ps name q).fqns) :=
  ⟨fun hnodup h => quantize_dense_preserves_fqns interfaceTypes additional dtype m m' hnodup h,
   (setChildAtPath_frame ps mg name q).1,
   (setChildAtPath_frame ps mg name q).2⟩

/-- C3 witness: on the dense example the successful `quantize_dense`
rewrite keeps the name set; on the feature-processed example the name
`sparse` survives the swap and `sparse.fpebc` stays registered. -/
theorem claim_name_preservation_amended_witness :
    (NModule.mk "Predict" false false
        [("ebc", .mk "torchrec.modules.embedding_modules.EmbeddingBagCollection" false false []),
         ("mlp", .mk "torch.nn.modules.linear.Linear" true true [])]).fqns =
      denseExampleGraph.fqns ∧
    ((["sparse"] ∈ (setChildAtPath fpExampleGraph ["sparse"] "fpebc" fpExampleQuantized).fqns ↔
        ["sparse"] ∈ fpExampleGraph.fqns) ∧
      ["sparse", "fpebc"] ∈
        (setChildAtPath fpExampleGraph ["sparse"] "fpebc" fpExampleQuantized).fqns) := by
  have hc := claim_name_preservation_amended exampleInterfaceTypes [] DType.float16
    denseExampleGraph
    (NModule.mk "Predict" false false
      [("ebc", .mk "torchrec.modules.embedding_modules.EmbeddingBagCollection" false false []),
       ("mlp", .mk "torch.nn.modules.linear.Linear" true true [])])
    fpExampleGraph ["sparse"] "fpebc" fpExampleQuantized
  refine ⟨hc.1 ?_ ?_, hc.2.1 ["sparse"] ?_, hc.2.2 ?_⟩
  · simp [denseExampleGraph, NModule.children]
  · simp [quantize_dense, buildReassign, applyReassign, isEmbeddingModuleType,
      NModule.typeName, NModule.children, NModule.isHalf, NModule.hasHook,
      NModule.halfHooked, halfCastList, denseExampleGraph, exampleInterfaceTypes,
      List.lookup]
  · intro h
    have := h.length_le
    simp at this
  · simp [fpExampleGraph, NModule.fqns, NModule.children, fqnsList]
